import Mathlib

/-!
Verification of the KLL quantile-sketch specification for the
muraliharidass/python-deequ repository.  The repository's visible source is a
tutorial notebook (`src/tutorials/KLLCheckExample.ipynb`); the sketch engine it
drives is not part of the visible sources, so the data structure and its
operations are modelled here from the specification's own description
(spec.md sections 3, 4, 6 and 7), and the notebook's printed outputs are used
as the ground truth for the concrete scenarios.
-/

set_option allowUnsafeReducibility true

attribute [local semireducible] Rat.mul Rat.add Rat.sub Rat.inv Rat.div Rat.ofScientific

instance {ε α : Type} [DecidableEq ε] [DecidableEq α] : DecidableEq (Except ε α) := fun x y =>
  match x, y with
  | .ok a, .ok b =>
    if h : a = b then .isTrue (by rw [h]) else .isFalse (fun hc => by cases hc; exact h rfl)
  | .error a, .error b =>
    if h : a = b then .isTrue (by rw [h]) else .isFalse (fun hc => by cases hc; exact h rfl)
  | .ok _, .error _ => .isFalse (fun hc => by cases hc)
  | .error _, .ok _ => .isFalse (fun hc => by cases hc)

namespace KLL

/-- Modelled from the spec: configuration of a sketch (section 3 and 6); the
engine code holding it is not in the repository.  `k` is the initial level
capacity, `c` the shrinking factor, `maxBins` the histogram bucket cap. -/
structure Config where
  k : ℤ
  c : ℚ
  maxBins : ℤ
  deriving DecidableEq

/-- Modelled from the spec: the error conditions of section 7; the engine's
error types are not in the repository. -/
inductive SketchError where
  | emptySketchError
  | invalidConfigError
  | incompatibleConfigError
  deriving DecidableEq

/-- Modelled from the spec: the spec's capacity formula `max(k_min, floor(k *
c^i))` (section 3) leaves `k_min` unnamed; 2 is the smallest capacity that
permits pairwise compaction. -/
def kMin : ℕ := 2

/-- Modelled from the spec: per-level capacity `k_i = max(k_min, floor(k * c^i))`
(section 3); the engine code is not in the repository. -/
def capacity (cfg : Config) (i : ℕ) : ℕ :=
  max kMin (Int.toNat ⌊(cfg.k : ℚ) * cfg.c ^ i⌋)

/-- Modelled from the spec: from a sorted buffer, select every other item
starting at the chosen parity (section 4.2) — one survivor per consecutive
pair; the engine code is not in the repository. -/
def promoteHalf (parity : Bool) : List ℚ → List ℚ
  | [] => []
  | [_] => []
  | a :: b :: rest => (if parity then b else a) :: promoteHalf parity rest

/-- Modelled from the spec: compaction of one overflowing level (sections 2.3
and 4.2): sort by value, move exactly half (± rounding) of the items up with
doubled weight — each promoted item absorbing its pair partner's weight so
that total weight is redistributed, never deleted (section 3) — while an odd
leftover item remains at the level.  Returns (kept at level, promoted to the
next level).  The engine code is not in the repository. -/
def compactBuffer (b : List ℚ) (parity : Bool) : List ℚ × List ℚ :=
  if (List.insertionSort (· ≤ ·) b).length % 2 = 0 then
    ([], promoteHalf parity (List.insertionSort (· ≤ ·) b))
  else
    ((List.insertionSort (· ≤ ·) b).take 1,
     promoteHalf parity ((List.insertionSort (· ≤ ·) b).drop 1))

/-- Modelled from the spec: append a freshly inserted value to level 0's
buffer (section 4.1), creating level 0 when the sketch is empty. -/
def pushLevel0 (v : ℚ) : List (List ℚ) → List (List ℚ)
  | [] => [[v]]
  | b :: rest => (b ++ [v]) :: rest

/-- Modelled from the spec: merge concatenates corresponding levels' buffers,
extending the level count to the max of both (section 4.3). -/
def zipLevels : List (List ℚ) → List (List ℚ) → List (List ℚ)
  | [], ys => ys
  | xs, [] => xs
  | x :: xs, y :: ys => (x ++ y) :: zipLevels xs ys

/-- Modelled from the spec: cascading compaction above the last existing
level — promoted items keep forming new levels while they overflow (section
4.2).  `fuel` bounds the cascade; any fuel at least the carried buffer's
length is sufficient because each compaction halves the buffer. -/
def buildTop (cfg : Config) : ℕ → List ℚ → ℕ → (ℕ → Bool) → List (List ℚ) × (ℕ → Bool)
  | 0, c, _, p => ([c], p)
  | fuel + 1, c, i, p =>
    if c.length ≤ capacity cfg i then ([c], p)
    else
      let pr := compactBuffer c (p i)
      let p' := fun j => if j = i then !p j else p j
      let r := buildTop cfg fuel pr.2 (i + 1) p'
      (pr.1 :: r.1, r.2)

/-- Modelled from the spec: one low-to-high compaction pass over the levels
(sections 4.1–4.3): each level that exceeds its capacity is halved and its
survivors are carried into the next level; a per-level parity toggle is
flipped at each compaction.  The engine code is not in the repository. -/
def compressLevels (cfg : Config) : List (List ℚ) → ℕ → (ℕ → Bool) → List ℚ → List (List ℚ) × (ℕ → Bool)
  | [], i, p, carry =>
    if carry.length = 0 then ([], p) else buildTop cfg carry.length carry i p
  | b :: rest, i, p, carry =>
    let b' := b ++ carry
    if b'.length ≤ capacity cfg i then
      let r := compressLevels cfg rest (i + 1) p []
      (b' :: r.1, r.2)
    else
      let pr := compactBuffer b' (p i)
      let p' := fun j => if j = i then !p j else p j
      let r := compressLevels cfg rest (i + 1) p' pr.2
      (pr.1 :: r.1, r.2)

/-- Modelled from the spec: restore every level's capacity invariant by a
compaction pass from the lowest level upward (sections 4.1 and 4.3). -/
def compress (cfg : Config) (ls : List (List ℚ)) (p : ℕ → Bool) :
    List (List ℚ) × (ℕ → Bool) :=
  compressLevels cfg ls 0 p []

/-- Modelled from the spec: the sketch state (section 3): leveled buffers
(level `i`'s items implicitly weigh `2^i`), the configuration, a per-level
compaction-parity toggle, the running count of ingested items, and the
observed extrema used as default histogram bounds.  The engine code is not in
the repository. -/
structure Sketch where
  cfg : Config
  levels : List (List ℚ)
  parities : ℕ → Bool
  count : ℕ
  mn : Option ℚ
  mx : Option ℚ

/-- Modelled from the spec: a freshly created empty sketch (section 3
lifecycle). -/
def mkSketch (cfg : Config) : Sketch :=
  { cfg := cfg, levels := [], parities := fun _ => false, count := 0,
    mn := none, mx := none }

/-- Modelled from the spec: validated construction (sections 6 and 7):
`newSketch(k, c, maxBins)` fails fast with `InvalidConfigError` unless
`k > 0`, `0 < c < 1` and `maxBins > 0`. -/
def newSketch (k : ℤ) (c : ℚ) (maxBins : ℤ) : Except SketchError Sketch :=
  if 0 < k ∧ 0 < c ∧ c < 1 ∧ 0 < maxBins then
    .ok (mkSketch { k := k, c := c, maxBins := maxBins })
  else .error .invalidConfigError

/-- Modelled from the spec: `insert(value)` appends the value to level 0 with
weight 1, triggers the compaction pass, updates the ingested count and the
observed extrema (section 4.1). -/
def insert (v : ℚ) (s : Sketch) : Sketch :=
  let r := compress s.cfg (pushLevel0 v s.levels) s.parities
  { cfg := s.cfg, levels := r.1, parities := r.2, count := s.count + 1,
    mn := some (match s.mn with | none => v | some m => min m v),
    mx := some (match s.mx with | none => v | some m => max m v) }

/-- Modelled from the spec: combine optional observed extrema of two merged
sketches. -/
def optComb (f : ℚ → ℚ → ℚ) : Option ℚ → Option ℚ → Option ℚ
  | none, y => y
  | x, none => x
  | some u, some w => some (f u w)

/-- Modelled from the spec: `merge` on compatible sketches concatenates
corresponding levels (weight-preserving) and re-runs the compaction pass from
lowest to highest level (section 4.3). -/
def mergeRaw (a b : Sketch) : Sketch :=
  let r := compress a.cfg (zipLevels a.levels b.levels) a.parities
  { cfg := a.cfg, levels := r.1, parities := r.2, count := a.count + b.count,
    mn := optComb min a.mn b.mn, mx := optComb max a.mx b.mx }

/-- Modelled from the spec: `merge(a, b)` fails with
`IncompatibleConfigError` when the `(k, c)` configurations differ (sections
4.1 and 7), else combines the sketches. -/
def merge (a b : Sketch) : Except SketchError Sketch :=
  if a.cfg.k = b.cfg.k ∧ a.cfg.c = b.cfg.c then .ok (mergeRaw a b)
  else .error .incompatibleConfigError

/-- Modelled from the spec: the weighted items retained across all levels —
an item of level `i` carries weight `2^i` (section 3). -/
def levelsItems : List (List ℚ) → ℕ → List (ℚ × ℕ)
  | [], _ => []
  | b :: rest, i => b.map (fun v => (v, 2 ^ i)) ++ levelsItems rest (i + 1)

/-- Modelled from the spec: the queryable summary of a sketch — all levels'
weighted (value, weight) pairs (section 3). -/
def retained (s : Sketch) : List (ℚ × ℕ) :=
  levelsItems s.levels 0

/-- Total weight of a list of weighted items. -/
def wsum (l : List (ℚ × ℕ)) : ℕ :=
  (l.map Prod.snd).sum

/-- Weight of the items whose value is at most `v`. -/
def wleq (l : List (ℚ × ℕ)) (v : ℚ) : ℕ :=
  wsum (l.filter (fun p => decide (p.1 ≤ v)))

/-- Modelled from the spec: total weight across all levels of a sketch. -/
def totalWeight (s : Sketch) : ℕ :=
  wsum (retained s)

/-- Fraction of the retained weight carried by items with value at most `v`. -/
def rankOf (l : List (ℚ × ℕ)) (v : ℚ) : ℚ :=
  (wleq l v : ℚ) / (wsum l : ℚ)

/-- Modelled from the spec: `rank(value)` sums the weights of all retained
items at most the value and divides by the total weight; querying an empty
sketch fails with `EmptySketchError` (sections 4.1 and 7). -/
def rank (s : Sketch) (v : ℚ) : Except SketchError ℚ :=
  if s.count = 0 then .error .emptySketchError
  else .ok (rankOf (retained s) v)

/-- Ordering of weighted items by value, used to sort the summary. -/
def pairLe (a b : ℚ × ℕ) : Prop := a.1 ≤ b.1

instance : DecidableRel pairLe := fun a b => inferInstanceAs (Decidable (a.1 ≤ b.1))

instance : IsTotal (ℚ × ℕ) pairLe := ⟨fun a b => le_total a.1 b.1⟩

instance : IsTrans (ℚ × ℕ) pairLe := ⟨fun _ _ _ h h' => le_trans h h'⟩

/-- Weighted items sorted by value. -/
def sortItems (l : List (ℚ × ℕ)) : List (ℚ × ℕ) :=
  List.insertionSort pairLe l

/-- Modelled from the spec: scan of the weighted-sorted retained items for
the first value whose cumulative weight fraction reaches `q` (section 4.1). -/
def qScan (W q : ℚ) : List (ℚ × ℕ) → ℚ → ℚ
  | [], _ => 0
  | (v, w) :: rest, acc =>
    if q ≤ (acc + (w : ℚ)) / W then v else qScan W q rest (acc + (w : ℚ))

/-- Modelled from the spec: `quantile(q)` searches the weighted-sorted
retained items for the smallest value whose cumulative weight fraction is at
least `q`; querying an empty sketch fails with `EmptySketchError` (sections
4.1 and 7). -/
def quantile (s : Sketch) (q : ℚ) : Except SketchError ℚ :=
  if s.count = 0 then .error .emptySketchError
  else .ok (qScan ((wsum (retained s) : ℚ)) q (sortItems (retained s)) 0)

/-- Modelled from the spec: the index of the equal-width bucket over
`[m, M]` receiving value `v` (section 4.4): a value exactly on an interior
bucket boundary is assigned to the lower of the two adjacent buckets, and the
index is clamped to the last bucket. -/
def bucketIdx (m M : ℚ) (B : ℕ) (v : ℚ) : ℕ :=
  if v ≤ m then 0
  else min ((⌈(v - m) * (B : ℚ) / (M - m)⌉).toNat - 1) (B - 1)

/-- Modelled from the spec: approximate per-bucket counts — each retained
weighted item contributes its full weight to the single bucket receiving its
value (section 4.4). -/
def bucketCounts (l : List (ℚ × ℕ)) (m M : ℚ) (B : ℕ) : List ℕ :=
  (List.range B).map (fun j => wsum (l.filter (fun p => decide (bucketIdx m M B p.1 = j))))

/-- Modelled from the spec: the ordered sequence of `B` contiguous
equal-width buckets over `[m, M]` with their approximate counts (section
4.4). -/
def buckets (l : List (ℚ × ℕ)) (m M : ℚ) (B : ℕ) : List (ℚ × ℚ × ℕ) :=
  (List.range B).map (fun j : ℕ =>
    (m + (j : ℚ) * (M - m) / (B : ℚ),
     m + ((j : ℚ) + 1) * (M - m) / (B : ℚ),
     wsum (l.filter (fun p => decide (bucketIdx m M B p.1 = j)))))

/-- Modelled from the spec: `histogram(n)` reports `n` equal-width buckets
(clamped to the configured maximum) spanning the observed extrema; querying
an empty sketch fails with `EmptySketchError` (sections 4.4 and 7). -/
def histogram (s : Sketch) (n : ℕ) : Except SketchError (List (ℚ × ℚ × ℕ)) :=
  if s.count = 0 then .error .emptySketchError
  else
    let B := min n (Int.toNat s.cfg.maxBins)
    .ok (buckets (retained s) (s.mn.getD 0) (s.mx.getD 0) B)

/-- Insert a list of values one at a time. -/
def insertAll (s : Sketch) (vs : List ℚ) : Sketch :=
  vs.foldl (fun t v => insert v t) s

/-- Modelled from the spec: the mutating operations of a sketch's lifecycle
(section 3): a single insertion or a merge with another sketch. -/
inductive Op where
  | ins : ℚ → Op
  | mrg : Sketch → Op

/-- Modelled from the spec: apply one mutating operation; an incompatible
merge fails (with `IncompatibleConfigError`) and leaves the sketch
unchanged. -/
def applyOp (s : Sketch) : Op → Sketch
  | .ins v => insert v s
  | .mrg t => if s.cfg.k = t.cfg.k ∧ s.cfg.c = t.cfg.c then mergeRaw s t else s

/-- Run a sequence of mutating operations. -/
def runOps (s : Sketch) (ops : List Op) : Sketch :=
  ops.foldl applyOp s

/-- Capacity invariant from level `i` on: every buffer of `ls`, placed at
levels `i, i+1, ...`, is within its capacity. -/
def capOK (cfg : Config) (i : ℕ) (ls : List (List ℚ)) : Prop :=
  ∀ j, (ls.getD j []).length ≤ capacity cfg (i + j)

/-- Total weight of leveled buffers starting at level `i`. -/
def levelsWeight : List (List ℚ) → ℕ → ℕ
  | [], _ => 0
  | b :: rest, i => b.length * 2 ^ i + levelsWeight rest (i + 1)

/-- Weight-conservation invariant: the retained weight equals the number of
ingested items. -/
def weightInv (s : Sketch) : Prop :=
  totalWeight s = s.count

/-- An operation is well-formed when any sketch it merges in itself satisfies
the weight-conservation invariant. -/
def opOK : Op → Prop
  | .ins _ => True
  | .mrg t => weightInv t

/-- Scenario configuration of the notebook's first check: sketch size 2,
shrinking factor 0.64, two detail bins. -/
def cfg1 : Config := { k := 2, c := 16 / 25, maxBins := 2 }

/-- Scenario sketch of the notebook's first check: the five `numViews` values
inserted one at a time. -/
def scenario1 : Sketch := insertAll (mkSketch cfg1) [0, 0, 5, 10, 12]

/-- Default configuration uncovered by the notebook: sketch size 2048,
shrinking factor 0.64, 100 detail bins. -/
def cfg2 : Config := { k := 2048, c := 16 / 25, maxBins := 100 }

/-- Scenario sketch of the notebook's second check: the same five values
under the default configuration. -/
def scenario2 : Sketch := insertAll (mkSketch cfg2) [0, 0, 5, 10, 12]

/-! Basic facts about weighted sums. -/

theorem wsum_nil : wsum [] = 0 := rfl

theorem wsum_cons (p : ℚ × ℕ) (l : List (ℚ × ℕ)) : wsum (p :: l) = p.2 + wsum l := by
  simp [wsum]

theorem wsum_append (l l' : List (ℚ × ℕ)) : wsum (l ++ l') = wsum l + wsum l' := by
  simp [wsum]

theorem wsum_perm {l l' : List (ℚ × ℕ)} (h : l.Perm l') : wsum l = wsum l' :=
  (h.map Prod.snd).sum_eq

theorem wsum_pos {l : List (ℚ × ℕ)} (hne : l ≠ []) (hpos : ∀ p ∈ l, 0 < p.2) :
    0 < wsum l := by
  cases l with
  | nil => exact absurd rfl hne
  | cons p t =>
    have := hpos p (List.mem_cons_self p t)
    simp [wsum_cons]
    omega

theorem wleq_perm {l l' : List (ℚ × ℕ)} (h : l.Perm l') (v : ℚ) :
    wleq l v = wleq l' v :=
  wsum_perm (h.filter _)

theorem wleq_mono (l : List (ℚ × ℕ)) {a b : ℚ} (hab : a ≤ b) : wleq l a ≤ wleq l b := by
  induction l with
  | nil => simp [wleq, wsum]
  | cons p t ih =>
    by_cases h : p.1 ≤ a
    · have h' : p.1 ≤ b := le_trans h hab
      simpa [wleq, List.filter_cons, h, h', wsum_cons] using Nat.add_le_add_left ih p.2
    · by_cases h' : p.1 ≤ b
      · have step : wleq t a ≤ p.2 + wleq t b := le_trans ih (Nat.le_add_left _ _)
        simpa [wleq, List.filter_cons, h, h', wsum_cons] using step
      · simpa [wleq, List.filter_cons, h, h'] using ih

theorem wleq_le (l : List (ℚ × ℕ)) (v : ℚ) : wleq l v ≤ wsum l := by
  induction l with
  | nil => simp [wleq, wsum]
  | cons p t ih =>
    by_cases h : p.1 ≤ v
    · simpa [wleq, List.filter_cons, h, wsum_cons] using Nat.add_le_add_left ih p.2
    · have step : wleq t v ≤ p.2 + wsum t := le_trans ih (Nat.le_add_left _ _)
      simpa [wleq, List.filter_cons, h, wsum_cons] using step

/-! Summation helpers used to prove that the histogram partitions the weight. -/

theorem sum_map_zero_aux (L : List ℕ) : (L.map (fun _ => (0 : ℕ))).sum = 0 := by
  induction L with
  | nil => rfl
  | cons a t ih => simp [ih]

theorem sum_map_add_aux (L : List ℕ) (g h : ℕ → ℕ) :
    (L.map (fun j => g j + h j)).sum = (L.map g).sum + (L.map h).sum := by
  induction L with
  | nil => rfl
  | cons a t ih => simp [ih]; omega

theorem sum_ite_notmem_aux (L : List ℕ) (x c : ℕ) (hx : x ∉ L) :
    (L.map (fun j => if x = j then c else 0)).sum = 0 := by
  induction L with
  | nil => rfl
  | cons a t ih =>
    have hxa : x ≠ a := fun h => hx (h ▸ List.mem_cons_self a t)
    have hxt : x ∉ t := fun h => hx (List.mem_cons_of_mem a h)
    simp [hxa, ih hxt]

theorem sum_ite_range_aux (B x c : ℕ) (hx : x < B) :
    ((List.range B).map (fun j => if x = j then c else 0)).sum = c := by
  induction B with
  | zero => omega
  | succ B ih =>
    rw [List.range_succ, List.map_append, List.sum_append]
    by_cases h : x = B
    · subst h
      rw [sum_ite_notmem_aux _ _ _ (by simp)]
      simp
    · have hx' : x < B := by omega
      rw [ih hx']
      simp [h]

theorem sum_filter_partition (l : List (ℚ × ℕ)) (f : ℚ × ℕ → ℕ) (B : ℕ)
    (hf : ∀ p ∈ l, f p < B) :
    ((List.range B).map (fun j => wsum (l.filter (fun p => decide (f p = j))))).sum
      = wsum l := by
  induction l with
  | nil => simp [wsum]
  | cons p t ih =>
    have hp : f p < B := hf p (List.mem_cons_self p t)
    have ht : ∀ q ∈ t, f q < B := fun q hq => hf q (List.mem_cons_of_mem p hq)
    have hfun : (fun j => wsum ((p :: t).filter (fun q => decide (f q = j))))
        = fun j => (if f p = j then p.2 else 0) + wsum (t.filter (fun q => decide (f q = j))) := by
      funext j
      by_cases h : f p = j <;> simp [List.filter_cons, h, wsum_cons]
    rw [hfun, sum_map_add_aux, sum_ite_range_aux B (f p) p.2 hp, ih ht, wsum_cons]

/-! Compaction preserves weight and restores the capacity invariant. -/

theorem promoteHalf_length (parity : Bool) : ∀ l : List ℚ,
    (promoteHalf parity l).length = l.length / 2
  | [] => by simp [promoteHalf]
  | [a] => by simp [promoteHalf]
  | a :: b :: rest => by
    have ih := promoteHalf_length parity rest
    simp only [promoteHalf, List.length_cons, ih]
    omega

theorem compactBuffer_keep_length (b : List ℚ) (parity : Bool) :
    (compactBuffer b parity).1.length = b.length % 2 := by
  by_cases h : (List.insertionSort (· ≤ ·) b).length % 2 = 0
  · rw [compactBuffer, if_pos h]
    rw [List.length_insertionSort] at h
    simp
    omega
  · rw [compactBuffer, if_neg h]
    rw [List.length_insertionSort] at h
    simp [List.length_take, List.length_insertionSort]
    omega

theorem compactBuffer_promote_length (b : List ℚ) (parity : Bool) :
    (compactBuffer b parity).2.length = b.length / 2 := by
  by_cases h : (List.insertionSort (· ≤ ·) b).length % 2 = 0
  · rw [compactBuffer, if_pos h]
    rw [List.length_insertionSort] at h
    simp [promoteHalf_length, List.length_insertionSort]
  · rw [compactBuffer, if_neg h]
    rw [List.length_insertionSort] at h
    simp [promoteHalf_length, List.length_insertionSort]
    omega

theorem weight_split_aux (n w : ℕ) : n % 2 * w + n / 2 * (w * 2) = n * w := by
  have h : n % 2 + 2 * (n / 2) = n := by omega
  calc n % 2 * w + n / 2 * (w * 2) = (n % 2 + 2 * (n / 2)) * w := by ring
  _ = n * w := by rw [h]

theorem buildTop_weight (cfg : Config) (fuel : ℕ) :
    ∀ (c : List ℚ) (i : ℕ) (p : ℕ → Bool),
      levelsWeight (buildTop cfg fuel c i p).1 i = c.length * 2 ^ i := by
  induction fuel with
  | zero => intro c i p; simp [buildTop, levelsWeight]
  | succ fuel ih =>
    intro c i p
    by_cases h : c.length ≤ capacity cfg i
    · simp [buildTop, h, levelsWeight]
    · simp only [buildTop, h, if_false, levelsWeight]
      rw [ih, compactBuffer_keep_length, compactBuffer_promote_length, pow_succ]
      exact weight_split_aux c.length (2 ^ i)

theorem compressLevels_weight (cfg : Config) :
    ∀ (ls : List (List ℚ)) (i : ℕ) (p : ℕ → Bool) (carry : List ℚ),
      levelsWeight (compressLevels cfg ls i p carry).1 i
        = levelsWeight ls i + carry.length * 2 ^ i := by
  intro ls
  induction ls with
  | nil =>
    intro i p carry
    by_cases h : carry.length = 0
    · simp [compressLevels, h, levelsWeight]
    · simp [compressLevels, h, buildTop_weight, levelsWeight]
  | cons b rest ih =>
    intro i p carry
    by_cases h : (b ++ carry).length ≤ capacity cfg i
    · simp only [compressLevels, h, if_true, levelsWeight]
      rw [ih]
      simp [levelsWeight]
      ring
    · simp only [compressLevels, h, if_false, levelsWeight]
      rw [ih, compactBuffer_keep_length, compactBuffer_promote_length, pow_succ]
      have := weight_split_aux (b ++ carry).length (2 ^ i)
      rw [List.length_append] at this
      have hgoal : (b.length + carry.length) % 2 * 2 ^ i
          + (levelsWeight rest (i + 1) + (b.length + carry.length) / 2 * (2 ^ i * 2))
          = b.length * 2 ^ i + levelsWeight rest (i + 1) + carry.length * 2 ^ i := by
        have hsplit : (b.length + carry.length) % 2 * 2 ^ i
            + (b.length + carry.length) / 2 * (2 ^ i * 2)
            = (b.length + carry.length) * 2 ^ i := this
        nlinarith [hsplit]
      simpa [List.length_append] using hgoal

theorem kMin_le_capacity (cfg : Config) (i : ℕ) : kMin ≤ capacity cfg i :=
  le_max_left _ _

theorem capOK_nil (cfg : Config) (i : ℕ) : capOK cfg i [] := by
  intro j
  simp [capOK, List.getD]

theorem capOK_cons {cfg : Config} {i : ℕ} {b : List ℚ} {rest : List (List ℚ)}
    (hb : b.length ≤ capacity cfg i) (hr : capOK cfg (i + 1) rest) :
    capOK cfg i (b :: rest) := by
  intro j
  cases j with
  | zero => simpa using hb
  | succ j =>
    have := hr j
    have hidx : i + 1 + j = i + (j + 1) := by omega
    rw [hidx] at this
    simpa using this

theorem buildTop_capOK (cfg : Config) (fuel : ℕ) :
    ∀ (c : List ℚ) (i : ℕ) (p : ℕ → Bool), c.length ≤ fuel →
      capOK cfg i (buildTop cfg fuel c i p).1 := by
  induction fuel with
  | zero =>
    intro c i p hc
    have : c.length = 0 := by omega
    have hcap : c.length ≤ capacity cfg i := by
      rw [this]; exact Nat.zero_le _
    simpa [buildTop] using capOK_cons hcap (capOK_nil cfg (i + 1))
  | succ fuel ih =>
    intro c i p hc
    by_cases h : c.length ≤ capacity cfg i
    · simpa [buildTop, h] using capOK_cons h (capOK_nil cfg (i + 1))
    · have hcap : kMin ≤ capacity cfg i := kMin_le_capacity cfg i
      have hlen : 2 < c.length := by
        have := kMin_le_capacity cfg i
        simp [kMin] at this
        omega
      have hkeep : (compactBuffer c (p i)).1.length ≤ capacity cfg i := by
        rw [compactBuffer_keep_length]
        have : c.length % 2 ≤ 1 := by omega
        have h2 : kMin ≤ capacity cfg i := kMin_le_capacity cfg i
        simp [kMin] at h2
        omega
      have hprom : (compactBuffer c (p i)).2.length ≤ fuel := by
        rw [compactBuffer_promote_length]
        omega
      simp only [buildTop, h, if_false]
      exact capOK_cons hkeep (ih _ _ _ hprom)

theorem compressLevels_capOK (cfg : Config) :
    ∀ (ls : List (List ℚ)) (i : ℕ) (p : ℕ → Bool) (carry : List ℚ),
      capOK cfg i (compressLevels cfg ls i p carry).1 := by
  intro ls
  induction ls with
  | nil =>
    intro i p carry
    by_cases h : carry.length = 0
    · simpa [compressLevels, h] using capOK_nil cfg i
    · simpa [compressLevels, h] using buildTop_capOK cfg carry.length carry i p le_rfl
  | cons b rest ih =>
    intro i p carry
    by_cases h : (b ++ carry).length ≤ capacity cfg i
    · have hres : (compressLevels cfg (b :: rest) i p carry).1
          = (b ++ carry) :: (compressLevels cfg rest (i + 1) p []).1 := by
        simp only [compressLevels]
        rw [if_pos h]
      rw [hres]
      exact capOK_cons h (ih (i + 1) p [])
    · have hkeep : (compactBuffer (b ++ carry) (p i)).1.length ≤ capacity cfg i := by
        rw [compactBuffer_keep_length]
        have h2 : kMin ≤ capacity cfg i := kMin_le_capacity cfg i
        simp [kMin] at h2
        omega
      have hres : (compressLevels cfg (b :: rest) i p carry).1
          = (compactBuffer (b ++ carry) (p i)).1 ::
            (compressLevels cfg rest (i + 1) (fun j => if j = i then !p j else p j)
              (compactBuffer (b ++ carry) (p i)).2).1 := by
        simp only [compressLevels]
        rw [if_neg h]
      rw [hres]
      exact capOK_cons hkeep (ih (i + 1) _ _)

theorem compress_weight (cfg : Config) (ls : List (List ℚ)) (p : ℕ → Bool) :
    levelsWeight (compress cfg ls p).1 0 = levelsWeight ls 0 := by
  simpa [compress] using compressLevels_weight cfg ls 0 p []

theorem compress_capOK (cfg : Config) (ls : List (List ℚ)) (p : ℕ → Bool) :
    capOK cfg 0 (compress cfg ls p).1 :=
  compressLevels_capOK cfg ls 0 p []

/-! The retained weighted items and the leveled weights agree. -/

theorem sum_const_aux (b : List ℚ) (c : ℕ) : (b.map (fun _ => c)).sum = b.length * c := by
  induction b with
  | nil => simp
  | cons a t ih => simp [ih, Nat.succ_mul, Nat.add_comm]

theorem wsum_levelsItems : ∀ (ls : List (List ℚ)) (i : ℕ),
    wsum (levelsItems ls i) = levelsWeight ls i
  | [], i => rfl
  | b :: rest, i => by
    have ih := wsum_levelsItems rest (i + 1)
    simp only [levelsItems, levelsWeight, wsum_append, ih]
    have : wsum (b.map (fun v => (v, 2 ^ i))) = b.length * 2 ^ i := by
      simp only [wsum, List.map_map]
      exact sum_const_aux b (2 ^ i)
    rw [this]

theorem levelsItems_pos : ∀ (ls : List (List ℚ)) (i : ℕ),
    ∀ p ∈ levelsItems ls i, 0 < p.2
  | [], _ => by simp [levelsItems]
  | b :: rest, i => by
    intro p hp
    rcases List.mem_append.mp hp with h | h
    · rcases List.mem_map.mp h with ⟨v, _, rfl⟩
      exact Nat.pos_pow_of_pos i (by omega)
    · exact levelsItems_pos rest (i + 1) p h

theorem retained_pos (s : Sketch) : ∀ p ∈ retained s, 0 < p.2 :=
  levelsItems_pos s.levels 0

theorem totalWeight_eq (s : Sketch) : totalWeight s = levelsWeight s.levels 0 :=
  wsum_levelsItems s.levels 0

theorem pushLevel0_weight (v : ℚ) (ls : List (List ℚ)) :
    levelsWeight (pushLevel0 v ls) 0 = levelsWeight ls 0 + 1 := by
  cases ls with
  | nil => simp [pushLevel0, levelsWeight]
  | cons b rest => simp [pushLevel0, levelsWeight]; ring

theorem zipLevels_weight : ∀ (xs ys : List (List ℚ)) (i : ℕ),
    levelsWeight (zipLevels xs ys) i = levelsWeight xs i + levelsWeight ys i
  | [], ys, i => by simp [zipLevels, levelsWeight]
  | x :: xs, [], i => by simp [zipLevels, levelsWeight]
  | x :: xs, y :: ys, i => by
    have ih := zipLevels_weight xs ys (i + 1)
    simp [zipLevels, levelsWeight, ih]
    ring

theorem totalWeight_insert (v : ℚ) (s : Sketch) :
    totalWeight (insert v s) = totalWeight s + 1 := by
  show wsum (levelsItems (compress s.cfg (pushLevel0 v s.levels) s.parities).1 0)
      = totalWeight s + 1
  rw [wsum_levelsItems, compress_weight, pushLevel0_weight, totalWeight_eq]

theorem totalWeight_mergeRaw (a b : Sketch) :
    totalWeight (mergeRaw a b) = totalWeight a + totalWeight b := by
  show wsum (levelsItems (compress a.cfg (zipLevels a.levels b.levels) a.parities).1 0)
      = totalWeight a + totalWeight b
  rw [wsum_levelsItems, compress_weight, zipLevels_weight, totalWeight_eq, totalWeight_eq]

theorem count_insert (v : ℚ) (s : Sketch) : (insert v s).count = s.count + 1 := rfl

theorem count_mergeRaw (a b : Sketch) : (mergeRaw a b).count = a.count + b.count := rfl

/-- C1: weight conservation — a compaction pass redistributes and never
deletes total weight, and over every sequence of insert and merge operations
the total weight summed across all levels' retained (value, weight) pairs
equals the total number of raw items ingested. -/
theorem c1_weight_conservation :
    (∀ (cfg : Config) (ls : List (List ℚ)) (p : ℕ → Bool),
        levelsWeight (compress cfg ls p).1 0 = levelsWeight ls 0)
    ∧ ∀ (ops : List Op) (s : Sketch), weightInv s → (∀ op ∈ ops, opOK op) →
        weightInv (runOps s ops) := by
  refine ⟨compress_weight, ?_⟩
  intro ops
  induction ops with
  | nil => intro s h _; exact h
  | cons op t ih =>
    intro s h hops
    have hop := hops op (List.mem_cons_self op t)
    have hs' : weightInv (applyOp s op) := by
      cases op with
      | ins v =>
        show totalWeight (insert v s) = (insert v s).count
        rw [totalWeight_insert, count_insert, h]
      | mrg u =>
        by_cases hc : s.cfg.k = u.cfg.k ∧ s.cfg.c = u.cfg.c
        · have happ : applyOp s (.mrg u) = mergeRaw s u := by
            simp [applyOp, hc]
          rw [happ]
          show totalWeight (mergeRaw s u) = (mergeRaw s u).count
          rw [totalWeight_mergeRaw, count_mergeRaw, h, hop]
        · have happ : applyOp s (.mrg u) = s := by
            simp [applyOp, hc]
          rw [happ]
          exact h
    have hrun : runOps s (op :: t) = runOps (applyOp s op) t := rfl
    rw [hrun]
    exact ih (applyOp s op) hs' (fun o ho => hops o (List.mem_cons_of_mem op ho))

/-- Witness for C1 at a concrete operation sequence: the empty sketch with two
inserts and a merge with another conserving sketch. -/
theorem c1_weight_conservation_witness :
    weightInv (runOps (mkSketch cfg1) [Op.ins 3, Op.ins 7, Op.mrg (mkSketch cfg1)]) := by
  refine c1_weight_conservation.2 _ (mkSketch cfg1) rfl ?_
  intro op hop
  simp only [List.mem_cons, List.not_mem_nil, or_false] at hop
  rcases hop with rfl | rfl | rfl
  · trivial
  · trivial
  · exact rfl

/-- C2: capacity invariant — after any insert or merge (with all cascading
compactions), every level's buffer length is at most its capacity
`k_i = max(k_min, floor(k * c^i))`, and the capacity is monotonically
non-increasing in the level index. -/
theorem c2_capacity_invariant (s : Sketch) (v : ℚ) :
    capOK s.cfg 0 (insert v s).levels
    ∧ (∀ t u : Sketch, merge s t = .ok u → capOK s.cfg 0 u.levels)
    ∧ (0 < s.cfg.c → s.cfg.c < 1 →
        ∀ i, capacity s.cfg (i + 1) ≤ capacity s.cfg i) := by
  refine ⟨?_, ?_, ?_⟩
  · show capOK s.cfg 0 (compress s.cfg (pushLevel0 v s.levels) s.parities).1
    exact compress_capOK _ _ _
  · intro t u hm
    unfold merge at hm
    by_cases hc : s.cfg.k = t.cfg.k ∧ s.cfg.c = t.cfg.c
    · rw [if_pos hc] at hm
      cases hm
      show capOK s.cfg 0 (compress s.cfg (zipLevels s.levels t.levels) s.parities).1
      exact compress_capOK _ _ _
    · rw [if_neg hc] at hm
      cases hm
  · intro hc0 hc1 i
    unfold capacity
    rcases le_or_lt 0 (s.cfg.k : ℚ) with hk | hk
    · have harg : (s.cfg.k : ℚ) * s.cfg.c ^ (i + 1) ≤ (s.cfg.k : ℚ) * s.cfg.c ^ i :=
        mul_le_mul_of_nonneg_left
          (pow_le_pow_of_le_one (le_of_lt hc0) (le_of_lt hc1) (Nat.le_succ i)) hk
      have := Int.toNat_le_toNat (Int.floor_le_floor harg)
      omega
    · have h1 : (s.cfg.k : ℚ) * s.cfg.c ^ (i + 1) ≤ 0 :=
        mul_nonpos_of_nonpos_of_nonneg (le_of_lt hk) (le_of_lt (pow_pos hc0 (i + 1)))
      have h2 : (s.cfg.k : ℚ) * s.cfg.c ^ i ≤ 0 :=
        mul_nonpos_of_nonpos_of_nonneg (le_of_lt hk) (le_of_lt (pow_pos hc0 i))
      have hf1 := Int.floor_nonpos h1
      have hf2 := Int.floor_nonpos h2
      omega

/-- Witness for C2 at a concrete sketch, insert, merge and level index. -/
theorem c2_capacity_invariant_witness :
    capOK cfg1 0 (insert 1 (mkSketch cfg1)).levels
    ∧ capacity cfg1 1 ≤ capacity cfg1 0 := by
  refine ⟨(c2_capacity_invariant (mkSketch cfg1) 1).1, ?_⟩
  exact (c2_capacity_invariant (mkSketch cfg1) 1).2.2 (by decide) (by decide) 0

/-! Rank estimates are monotone and stay within the unit interval. -/

theorem rankOf_nonneg (l : List (ℚ × ℕ)) (v : ℚ) : 0 ≤ rankOf l v :=
  div_nonneg (Nat.cast_nonneg _) (Nat.cast_nonneg _)

theorem rankOf_le_one (l : List (ℚ × ℕ)) (v : ℚ) : rankOf l v ≤ 1 := by
  by_cases hW : wsum l = 0
  · have h0 : wleq l v = 0 := by
      have := wleq_le l v
      omega
    simp [rankOf, h0]
  · have hpos : (0 : ℚ) < (wsum l : ℚ) := by
      exact_mod_cast Nat.pos_of_ne_zero hW
    exact (div_le_one hpos).mpr (by exact_mod_cast wleq_le l v)

theorem rankOf_mono (l : List (ℚ × ℕ)) {a b : ℚ} (hab : a ≤ b) :
    rankOf l a ≤ rankOf l b := by
  by_cases hW : wsum l = 0
  · simp [rankOf, hW]
  · have hpos : (0 : ℚ) < (wsum l : ℚ) := by
      exact_mod_cast Nat.pos_of_ne_zero hW
    exact (div_le_div_iff_of_pos_right hpos).mpr (by exact_mod_cast wleq_mono l hab)

/-- C5: rank monotonicity — on a non-empty sketch, `rank` succeeds, is
monotone in the queried value, and always returns a value in `[0, 1]`. -/
theorem c5_rank_monotone (s : Sketch) (a b : ℚ) (hs : s.count ≠ 0) (hab : a ≤ b) :
    ∃ ra rb, rank s a = .ok ra ∧ rank s b = .ok rb
      ∧ ra ≤ rb ∧ 0 ≤ ra ∧ ra ≤ 1 ∧ 0 ≤ rb ∧ rb ≤ 1 := by
  refine ⟨rankOf (retained s) a, rankOf (retained s) b, ?_, ?_, ?_, ?_, ?_, ?_, ?_⟩
  · simp [rank, hs]
  · simp [rank, hs]
  · exact rankOf_mono _ hab
  · exact rankOf_nonneg _ _
  · exact rankOf_le_one _ _
  · exact rankOf_nonneg _ _
  · exact rankOf_le_one _ _

/-- Witness for C5 at a concrete one-item sketch and query values 1 ≤ 2. -/
theorem c5_rank_monotone_witness :
    ∃ ra rb, rank (insert 3 (mkSketch cfg1)) 1 = .ok ra
      ∧ rank (insert 3 (mkSketch cfg1)) 2 = .ok rb
      ∧ ra ≤ rb ∧ 0 ≤ ra ∧ ra ≤ 1 ∧ 0 ≤ rb ∧ rb ≤ 1 :=
  c5_rank_monotone (insert 3 (mkSketch cfg1)) 1 2 (by decide) (by decide)

/-! The quantile scan finds the smallest value whose cumulative weight
fraction reaches the requested rank. -/

theorem wleq_cons_of_le {v u : ℚ} {w : ℕ} {t : List (ℚ × ℕ)} (h : v ≤ u) :
    wleq ((v, w) :: t) u = w + wleq t u := by
  simp [wleq, List.filter_cons, h, wsum_cons]

theorem qScan_spec (W q : ℚ) (hW : 0 < W) (l : List (ℚ × ℕ)) :
    ∀ acc : ℚ, l ≠ [] → List.Sorted pairLe l →
      q ≤ (acc + (wsum l : ℚ)) / W →
      (∃ w, (qScan W q l acc, w) ∈ l)
      ∧ q ≤ (acc + (wleq l (qScan W q l acc) : ℚ)) / W
      ∧ ∀ u w', (u, w') ∈ l → u < qScan W q l acc →
          (acc + (wleq l u : ℚ)) / W < q := by
  induction l with
  | nil => intro acc h; exact absurd rfl h
  | cons hd t ih =>
    obtain ⟨v, w⟩ := hd
    intro acc _ hsort hq
    have hsorted := List.sorted_cons.mp hsort
    by_cases hcross : q ≤ (acc + (w : ℚ)) / W
    · have hres : qScan W q ((v, w) :: t) acc = v := by simp [qScan, hcross]
      rw [hres]
      refine ⟨⟨w, List.mem_cons_self _ _⟩, ?_, ?_⟩
      · rw [wleq_cons_of_le le_rfl]
        refine le_trans hcross ((div_le_div_iff_of_pos_right hW).mpr ?_)
        have hnn : (0 : ℚ) ≤ (wleq t v : ℚ) := Nat.cast_nonneg _
        push_cast
        linarith
      · intro u w' hu hlt
        rcases List.mem_cons.mp hu with heq | hmem
        · injection heq with h1 h2
          subst h1
          exact absurd hlt (lt_irrefl _)
        · have hvu : v ≤ u := hsorted.1 (u, w') hmem
          exact absurd hlt (not_lt.mpr hvu)
    · have hres : qScan W q ((v, w) :: t) acc = qScan W q t (acc + (w : ℚ)) := by
        simp [qScan, hcross]
      have htne : t ≠ [] := by
        intro h0
        subst h0
        rw [wsum_cons, wsum_nil] at hq
        exact hcross (by simpa using hq)
      have hq' : q ≤ ((acc + (w : ℚ)) + (wsum t : ℚ)) / W := by
        have hcast : (acc + ((wsum ((v, w) :: t) : ℕ) : ℚ)) / W
            = ((acc + (w : ℚ)) + (wsum t : ℚ)) / W := by
          rw [wsum_cons]; push_cast; ring
        exact hcast ▸ hq
      obtain ⟨⟨w0, hw0⟩, hcum, hmin⟩ := ih (acc + (w : ℚ)) htne hsorted.2 hq'
      rw [hres]
      have hvr : v ≤ qScan W q t (acc + (w : ℚ)) := hsorted.1 _ hw0
      refine ⟨⟨w0, List.mem_cons_of_mem _ hw0⟩, ?_, ?_⟩
      · rw [wleq_cons_of_le hvr]
        have hcast : (acc + ((w + wleq t (qScan W q t (acc + (w : ℚ))) : ℕ) : ℚ)) / W
            = ((acc + (w : ℚ)) + (wleq t (qScan W q t (acc + (w : ℚ))) : ℚ)) / W := by
          push_cast; ring
        rw [hcast]
        exact hcum
      · intro u w' hu hur
        rcases List.mem_cons.mp hu with heq | hmem
        · injection heq with h1 h2
          subst h1
          rw [wleq_cons_of_le le_rfl]
          by_cases hvt : ∃ w2, (u, w2) ∈ t
          · obtain ⟨w2, hw2⟩ := hvt
            have hrec := hmin u w2 hw2 hur
            have hcast : (acc + ((w + wleq t u : ℕ) : ℚ)) / W
                = ((acc + (w : ℚ)) + (wleq t u : ℚ)) / W := by
              push_cast; ring
            rw [hcast]
            exact hrec
          · have hz : wleq t u = 0 := by
              have hfil : t.filter (fun p => decide (p.1 ≤ u)) = [] := by
                rw [List.filter_eq_nil_iff]
                intro p hp
                simp only [decide_eq_true_eq]
                intro hle
                have hge : u ≤ p.1 := hsorted.1 p hp
                have heqv : p.1 = u := le_antisymm hle hge
                exact hvt ⟨p.2, by rw [← heqv]; simpa using hp⟩
              simp [wleq, hfil, wsum_nil]
            rw [hz]
            have hlt := not_le.mp hcross
            simpa using hlt
        · have hvu : v ≤ u := hsorted.1 (u, w') hmem
          rw [wleq_cons_of_le hvu]
          have hrec := hmin u w' hmem hur
          have hcast : (acc + ((w + wleq t u : ℕ) : ℚ)) / W
              = ((acc + (w : ℚ)) + (wleq t u : ℚ)) / W := by
            push_cast; ring
          rw [hcast]
          exact hrec

/-- C4: quantile definition — on a non-empty sketch and `q ∈ [0, 1]`,
`quantile(q)` returns a retained value whose cumulative weight fraction is at
least `q` and such that every smaller retained value has cumulative weight
fraction below `q`; in particular a single-item sketch returns its item. -/
theorem c4_quantile_smallest (s : Sketch) (q : ℚ) (hs : s.count ≠ 0)
    (hne : retained s ≠ []) (_hq0 : 0 ≤ q) (hq1 : q ≤ 1) :
    ∃ v, quantile s q = .ok v
      ∧ (∃ w, (v, w) ∈ retained s)
      ∧ q ≤ rankOf (retained s) v
      ∧ (∀ u w', (u, w') ∈ retained s → u < v → rankOf (retained s) u < q)
      ∧ (∀ v0 w0, retained s = [(v0, w0)] → v = v0) := by
  have hperm : (sortItems (retained s)).Perm (retained s) :=
    List.perm_insertionSort pairLe (retained s)
  have hWpos : (0 : ℚ) < (wsum (retained s) : ℚ) := by
    exact_mod_cast wsum_pos hne (retained_pos s)
  have hsne : sortItems (retained s) ≠ [] := by
    intro h0
    have hlen := hperm.length_eq
    rw [h0] at hlen
    simp at hlen
    exact hne (List.length_eq_zero.mp hlen.symm)
  have hsorted : List.Sorted pairLe (sortItems (retained s)) :=
    List.sorted_insertionSort pairLe (retained s)
  have hws : wsum (sortItems (retained s)) = wsum (retained s) := wsum_perm hperm
  have hqtop : q ≤ ((0 : ℚ) + (wsum (sortItems (retained s)) : ℚ))
      / (wsum (retained s) : ℚ) := by
    rw [hws, zero_add, div_self (ne_of_gt hWpos)]
    exact hq1
  obtain ⟨⟨w0, hw0⟩, hcum, hmin⟩ :=
    qScan_spec (wsum (retained s) : ℚ) q hWpos (sortItems (retained s)) 0
      hsne hsorted hqtop
  refine ⟨qScan ((wsum (retained s) : ℚ)) q (sortItems (retained s)) 0,
    by simp [quantile, hs], ⟨w0, hperm.subset hw0⟩, ?_, ?_, ?_⟩
  · rw [wleq_perm hperm, zero_add] at hcum
    exact hcum
  · intro u w' hu hur
    have := hmin u w' (hperm.mem_iff.mpr hu) hur
    rw [wleq_perm hperm, zero_add] at this
    exact this
  · intro v0 wv0 hsl
    have hmem2 : (qScan ((wsum (retained s) : ℚ)) q (sortItems (retained s)) 0, w0)
        ∈ [(v0, wv0)] := by
      rw [← hsl]
      exact hperm.subset hw0
    have heq := List.mem_singleton.mp hmem2
    exact congrArg Prod.fst heq

/-- Witness for C4 at a concrete one-item sketch and rank 1/2. -/
theorem c4_quantile_smallest_witness :
    ∃ v, quantile (insert 3 (mkSketch cfg1)) (1 / 2) = .ok v
      ∧ (∃ w, (v, w) ∈ retained (insert 3 (mkSketch cfg1)))
      ∧ 1 / 2 ≤ rankOf (retained (insert 3 (mkSketch cfg1))) v
      ∧ (∀ u w', (u, w') ∈ retained (insert 3 (mkSketch cfg1)) → u < v →
          rankOf (retained (insert 3 (mkSketch cfg1))) u < 1 / 2)
      ∧ (∀ v0 w0, retained (insert 3 (mkSketch cfg1)) = [(v0, w0)] → v = v0) :=
  c4_quantile_smallest (insert 3 (mkSketch cfg1)) (1 / 2) (by decide) (by decide)
    (by decide) (by decide)

/-! Bucket-index facts for the histogram extractor. -/

theorem bucketIdx_lt (m M : ℚ) (B : ℕ) (v : ℚ) (hB : 1 ≤ B) :
    bucketIdx m M B v < B := by
  unfold bucketIdx
  by_cases hle : v ≤ m
  · rw [if_pos hle]; omega
  · rw [if_neg hle]
    have h := min_le_right ((⌈(v - m) * (B : ℚ) / (M - m)⌉).toNat - 1) (B - 1)
    omega

theorem bucketIdx_mem_aux (m M : ℚ) (B : ℕ) (v : ℚ) (hB : 1 ≤ B) (hmM : m < M)
    (hvm : m ≤ v) (hvM : v ≤ M) :
    m + (bucketIdx m M B v : ℚ) * (M - m) / B ≤ v
    ∧ v ≤ m + ((bucketIdx m M B v : ℚ) + 1) * (M - m) / B := by
  have hMm : (0 : ℚ) < M - m := sub_pos.mpr hmM
  have hBQ : (0 : ℚ) < (B : ℚ) := by exact_mod_cast Nat.lt_of_lt_of_le Nat.zero_lt_one hB
  by_cases hle : v ≤ m
  · have hdiv : (0 : ℚ) < (M - m) / B := div_pos hMm hBQ
    unfold bucketIdx
    rw [if_pos hle]
    constructor
    · simpa using hvm
    · push_cast
      have hveq : v = m := le_antisymm hle hvm
      have h01 : ((0 : ℚ) + 1) * (M - m) / B = (M - m) / B := by ring
      rw [hveq, h01]
      linarith
  · have hmv : m < v := not_le.mp hle
    have hxpos : 0 < (v - m) * (B : ℚ) / (M - m) :=
      div_pos (mul_pos (sub_pos.mpr hmv) hBQ) hMm
    have hceil_pos : 0 < ⌈(v - m) * (B : ℚ) / (M - m)⌉ := Int.ceil_pos.mpr hxpos
    have hxleB : (v - m) * (B : ℚ) / (M - m) ≤ (B : ℚ) := by
      rw [div_le_iff₀ hMm]
      have hsub : v - m ≤ M - m := by linarith
      calc (v - m) * (B : ℚ) ≤ (M - m) * (B : ℚ) :=
            mul_le_mul_of_nonneg_right hsub (le_of_lt hBQ)
      _ = (B : ℚ) * (M - m) := by ring
    have hceilB : ⌈(v - m) * (B : ℚ) / (M - m)⌉ ≤ (B : ℤ) :=
      Int.ceil_le.mpr (by exact_mod_cast hxleB)
    have hidx : bucketIdx m M B v = (⌈(v - m) * (B : ℚ) / (M - m)⌉).toNat - 1 := by
      unfold bucketIdx
      rw [if_neg hle]
      omega
    have htn : (((⌈(v - m) * (B : ℚ) / (M - m)⌉).toNat : ℕ) : ℤ)
        = ⌈(v - m) * (B : ℚ) / (M - m)⌉ := Int.toNat_of_nonneg (le_of_lt hceil_pos)
    have hcast : (((⌈(v - m) * (B : ℚ) / (M - m)⌉).toNat - 1 : ℕ) : ℚ)
        = ((⌈(v - m) * (B : ℚ) / (M - m)⌉ : ℤ) : ℚ) - 1 := by
      have h1 : (1 : ℕ) ≤ (⌈(v - m) * (B : ℚ) / (M - m)⌉).toNat := by omega
      have h2 : (((⌈(v - m) * (B : ℚ) / (M - m)⌉).toNat : ℕ) : ℚ)
          = ((⌈(v - m) * (B : ℚ) / (M - m)⌉ : ℤ) : ℚ) := by
        calc (((⌈(v - m) * (B : ℚ) / (M - m)⌉).toNat : ℕ) : ℚ)
            = ((((⌈(v - m) * (B : ℚ) / (M - m)⌉).toNat : ℕ) : ℤ) : ℚ) := by push_cast; ring
        _ = ((⌈(v - m) * (B : ℚ) / (M - m)⌉ : ℤ) : ℚ) := by rw [htn]
      rw [Nat.cast_sub h1, h2]
      norm_num
    have hback : ((v - m) * (B : ℚ) / (M - m)) * (M - m) / B = v - m := by
      field_simp
    rw [hidx, hcast]
    constructor
    · have hzx : ((⌈(v - m) * (B : ℚ) / (M - m)⌉ : ℤ) : ℚ) - 1
          ≤ (v - m) * (B : ℚ) / (M - m) := by
        have := Int.ceil_lt_add_one ((v - m) * (B : ℚ) / (M - m))
        linarith
      have step : (((⌈(v - m) * (B : ℚ) / (M - m)⌉ : ℤ) : ℚ) - 1) * (M - m) / B
          ≤ ((v - m) * (B : ℚ) / (M - m)) * (M - m) / B := by
        gcongr
      linarith [step, hback]
    · have hxz : (v - m) * (B : ℚ) / (M - m)
          ≤ ((⌈(v - m) * (B : ℚ) / (M - m)⌉ : ℤ) : ℚ) := Int.le_ceil _
      have step : ((v - m) * (B : ℚ) / (M - m)) * (M - m) / B
          ≤ ((⌈(v - m) * (B : ℚ) / (M - m)⌉ : ℤ) : ℚ) * (M - m) / B := by
        gcongr
      have hlin : (((⌈(v - m) * (B : ℚ) / (M - m)⌉ : ℤ) : ℚ) - 1 + 1) * (M - m) / B
          = ((⌈(v - m) * (B : ℚ) / (M - m)⌉ : ℤ) : ℚ) * (M - m) / B := by
        ring
      rw [hlin]
      linarith [step, hback]

theorem bucketIdx_boundary (m M : ℚ) (B i : ℕ) (hB : 1 ≤ B) (hmM : m < M)
    (hi1 : 1 ≤ i) (hiB : i ≤ B) :
    bucketIdx m M B (m + (i : ℚ) * (M - m) / B) = i - 1 := by
  have hMm : (0 : ℚ) < M - m := sub_pos.mpr hmM
  have hBQ : (0 : ℚ) < (B : ℚ) := by exact_mod_cast Nat.lt_of_lt_of_le Nat.zero_lt_one hB
  have hipos : (0 : ℚ) < (i : ℚ) := by exact_mod_cast Nat.lt_of_lt_of_le Nat.zero_lt_one hi1
  have hpos : 0 < (i : ℚ) * (M - m) / B := div_pos (mul_pos hipos hMm) hBQ
  have hnotle : ¬ (m + (i : ℚ) * (M - m) / B ≤ m) := not_le.mpr (by linarith)
  unfold bucketIdx
  rw [if_neg hnotle]
  have harg : (m + (i : ℚ) * (M - m) / B - m) * (B : ℚ) / (M - m) = (i : ℚ) := by
    field_simp
    ring
  rw [harg, Int.ceil_natCast]
  omega

theorem buckets_counts (l : List (ℚ × ℕ)) (m M : ℚ) (B : ℕ) :
    (buckets l m M B).map (fun b => b.2.2) = bucketCounts l m M B := by
  simp [buckets, bucketCounts, List.map_map]

/-- C6 (amended): histogram weight conservation — for every non-empty sketch,
every positive number of buckets, and bounds `m < M` covering the retained
values, the bucket counts sum to the total sketch weight; every retained item
falls in exactly one bucket index below `B`, its bucket's closed range
contains its value, and a value exactly on an interior bucket boundary is
assigned to the lower of the two adjacent buckets (the bound `M` to the last
bucket). -/
theorem c6_histogram_weight (s : Sketch) (B : ℕ) (m M : ℚ)
    (_hs : s.count ≠ 0) (hB : 1 ≤ B) (hmM : m < M)
    (hcov : ∀ p ∈ retained s, m ≤ p.1 ∧ p.1 ≤ M) :
    ((buckets (retained s) m M B).map (fun b => b.2.2)).sum = totalWeight s
    ∧ (∀ p ∈ retained s, bucketIdx m M B p.1 < B
        ∧ m + (bucketIdx m M B p.1 : ℚ) * (M - m) / B ≤ p.1
        ∧ p.1 ≤ m + ((bucketIdx m M B p.1 : ℚ) + 1) * (M - m) / B)
    ∧ (∀ i : ℕ, 1 ≤ i → i ≤ B →
        bucketIdx m M B (m + (i : ℚ) * (M - m) / B) = i - 1) := by
  refine ⟨?_, ?_, ?_⟩
  · rw [buckets_counts]
    exact sum_filter_partition (retained s) (fun p => bucketIdx m M B p.1) B
      (fun p _ => bucketIdx_lt m M B p.1 hB)
  · intro p hp
    obtain ⟨h1, h2⟩ := hcov p hp
    exact ⟨bucketIdx_lt m M B p.1 hB,
      (bucketIdx_mem_aux m M B p.1 hB hmM h1 h2).1,
      (bucketIdx_mem_aux m M B p.1 hB hmM h1 h2).2⟩
  · intro i h1 h2
    exact bucketIdx_boundary m M B i hB hmM h1 h2

/-- C6 counterexample: with zero buckets — one of the "every number of
buckets" the claim quantifies over — the bucket counts sum to 0 while the
non-empty sketch with covered retained values has total weight 1, so the
claim as stated fails at numBuckets = 0. -/
theorem c6_histogram_weight_cex :
    (insert 3 (mkSketch cfg1)).count ≠ 0
    ∧ retained (insert 3 (mkSketch cfg1)) ≠ []
    ∧ (∀ p ∈ retained (insert 3 (mkSketch cfg1)), (0 : ℚ) ≤ p.1 ∧ p.1 ≤ 12)
    ∧ ((buckets (retained (insert 3 (mkSketch cfg1))) 0 12 0).map (fun b => b.2.2)).sum = 0
    ∧ totalWeight (insert 3 (mkSketch cfg1)) = 1
    ∧ ((buckets (retained (insert 3 (mkSketch cfg1))) 0 12 0).map (fun b => b.2.2)).sum
        ≠ totalWeight (insert 3 (mkSketch cfg1)) := by
  decide

/-- Witness for C6 at a concrete sketch, two buckets and bounds [0, 12]. -/
theorem c6_histogram_weight_witness :
    ((buckets (retained (insert 3 (mkSketch cfg1))) 0 12 2).map (fun b => b.2.2)).sum
      = totalWeight (insert 3 (mkSketch cfg1))
    ∧ (∀ p ∈ retained (insert 3 (mkSketch cfg1)), bucketIdx 0 12 2 p.1 < 2
        ∧ 0 + (bucketIdx 0 12 2 p.1 : ℚ) * (12 - 0) / ((2 : ℕ) : ℚ) ≤ p.1
        ∧ p.1 ≤ 0 + ((bucketIdx 0 12 2 p.1 : ℚ) + 1) * (12 - 0) / ((2 : ℕ) : ℚ))
    ∧ (∀ i : ℕ, 1 ≤ i → i ≤ 2 →
        bucketIdx 0 12 2 (0 + (i : ℚ) * (12 - 0) / ((2 : ℕ) : ℚ)) = i - 1) :=
  c6_histogram_weight (insert 3 (mkSketch cfg1)) 2 0 12 (by decide) (by decide)
    (by norm_num) (by decide)

/-- C3: scenario 1 — inserting [0, 0, 5, 10, 12] one at a time into a sketch
with k = 2, c = 0.64, maxBins = 2 and querying histogram(2) over the observed
bounds [0, 12] yields the two buckets (0, 6) with count 3 and (6, 12) with
count 2, exactly as the notebook's failing check printed. -/
theorem c3_scenario1_histogram :
    histogram scenario1 2 = .ok [(0, 6, 3), (6, 12, 2)] := by decide

/-- The hundred-bucket distribution printed by the notebook's second check:
equal-width buckets of width 0.12 spanning [0, 12], count 2 in bucket 0 and
count 1 in buckets 41, 83 and 99. -/
def histo2 : List (ℚ × ℚ × ℕ) :=
  (List.range 100).map (fun j : ℕ =>
    ((j : ℚ) * 12 / 100, ((j : ℚ) + 1) * 12 / 100,
     if j = 0 then 2 else if j = 41 then 1 else if j = 83 then 1 else
       if j = 99 then 1 else 0))

/-- C9 counterexample: the default-configuration histogram equals the
notebook's printed distribution, whose first bucket holds count 2 — so the
claim that every bucket holds 0 or 1 is false. -/
theorem c9_scenario2_cex :
    histogram scenario2 100 = .ok histo2
    ∧ ¬ (∀ b ∈ histo2, b.2.2 = 0 ∨ b.2.2 = 1) :=
  ⟨by decide, by decide⟩

/-- C9 (amended): the default-configuration histogram has 100 equal-width
buckets of width 0.12 spanning [0, 12]; the non-zero counts sit exactly at
the buckets containing the inserted values — count 2 at bucket 0 (the value
0.0 inserted twice) and count 1 at buckets 41, 83 and 99 (the values 5.0,
10.0 and 12.0) — matching the notebook's printed distribution exactly. -/
theorem c9_scenario2_histogram :
    histogram scenario2 100 = .ok histo2
    ∧ histo2.length = 100
    ∧ (∀ b ∈ histo2, b.2.2 = 0 ∨ b.2.2 = 1 ∨ b.2.2 = 2) :=
  ⟨by decide, by decide, by decide⟩

/-- C7: empty-sketch queries — on a freshly constructed sketch, rank,
quantile and histogram all fail with `EmptySketchError`; the error is
non-fatal: the sketch value itself is untouched by the read-only queries and
a subsequent insert succeeds, after which rank answers normally. -/
theorem c7_empty_sketch_errors (k : ℤ) (c : ℚ) (mb : ℤ) (s : Sketch) (v q : ℚ)
    (n : ℕ) (h : newSketch k c mb = .ok s) :
    rank s v = .error .emptySketchError
    ∧ quantile s q = .error .emptySketchError
    ∧ histogram s n = .error .emptySketchError
    ∧ s.count = 0
    ∧ (insert v s).count = 1
    ∧ rank (insert v s) v = .ok (rankOf (retained (insert v s)) v) := by
  have hs : s = mkSketch { k := k, c := c, maxBins := mb } := by
    unfold newSketch at h
    by_cases hok : 0 < k ∧ 0 < c ∧ c < 1 ∧ 0 < mb
    · rw [if_pos hok] at h
      injection h with h2
      exact h2.symm
    · rw [if_neg hok] at h
      exact Except.noConfusion h
  subst hs
  exact ⟨rfl, rfl, rfl, rfl, rfl, rfl⟩

/-- Witness for C7 at a concrete construction and value. -/
theorem c7_empty_sketch_errors_witness :
    rank (mkSketch { k := 2, c := 1 / 2, maxBins := 3 }) 1 = .error .emptySketchError
    ∧ quantile (mkSketch { k := 2, c := 1 / 2, maxBins := 3 }) (1 / 2)
        = .error .emptySketchError
    ∧ histogram (mkSketch { k := 2, c := 1 / 2, maxBins := 3 }) 2
        = .error .emptySketchError
    ∧ (mkSketch { k := 2, c := 1 / 2, maxBins := 3 }).count = 0
    ∧ (insert 1 (mkSketch { k := 2, c := 1 / 2, maxBins := 3 })).count = 1
    ∧ rank (insert 1 (mkSketch { k := 2, c := 1 / 2, maxBins := 3 })) 1
        = .ok (rankOf (retained (insert 1 (mkSketch { k := 2, c := 1 / 2, maxBins := 3 }))) 1) :=
  c7_empty_sketch_errors 2 (1 / 2) 3 (mkSketch { k := 2, c := 1 / 2, maxBins := 3 })
    1 (1 / 2) 2 rfl

/-- C8: construction validation — `newSketch(k, c, maxBins)` fails fast with
`InvalidConfigError` whenever k ≤ 0, or c lies outside (0, 1), or
maxBins ≤ 0 (in particular for k = 0), and succeeds for every configuration
with k > 0, 0 < c < 1 and maxBins > 0. -/
theorem c8_construction_validation (k : ℤ) (c : ℚ) (mb : ℤ) :
    ((k ≤ 0 ∨ c ≤ 0 ∨ 1 ≤ c ∨ mb ≤ 0) →
        newSketch k c mb = .error .invalidConfigError)
    ∧ newSketch 0 c mb = .error .invalidConfigError
    ∧ ((0 < k ∧ 0 < c ∧ c < 1 ∧ 0 < mb) →
        newSketch k c mb = .ok (mkSketch { k := k, c := c, maxBins := mb })) := by
  refine ⟨?_, ?_, ?_⟩
  · intro hbad
    have hneg : ¬ (0 < k ∧ 0 < c ∧ c < 1 ∧ 0 < mb) := by
      intro hcon
      rcases hbad with h | h | h | h
      · exact absurd hcon.1 (not_lt.mpr h)
      · exact absurd hcon.2.1 (not_lt.mpr h)
      · exact absurd hcon.2.2.1 (not_lt.mpr h)
      · exact absurd hcon.2.2.2 (not_lt.mpr h)
    unfold newSketch
    rw [if_neg hneg]
  · have hneg : ¬ (0 < (0 : ℤ) ∧ 0 < c ∧ c < 1 ∧ 0 < mb) := fun hcon =>
      absurd hcon.1 (lt_irrefl 0)
    unfold newSketch
    rw [if_neg hneg]
  · intro hgood
    unfold newSketch
    rw [if_pos hgood]

/-- Witness for C8: three concrete constructions — negative k fails, k = 0
fails, and a valid configuration succeeds. -/
theorem c8_construction_validation_witness :
    newSketch (-1) (1 / 2) 3 = .error .invalidConfigError
    ∧ newSketch 0 (1 / 2) 3 = .error .invalidConfigError
    ∧ newSketch 2 (1 / 2) 3 = .ok (mkSketch { k := 2, c := 1 / 2, maxBins := 3 }) :=
  ⟨(c8_construction_validation (-1) (1 / 2) 3).1 (Or.inl (by norm_num)),
   (c8_construction_validation 0 (1 / 2) 3).2.1,
   (c8_construction_validation 2 (1 / 2) 3).2.2
     ⟨by norm_num, by norm_num, by norm_num, by norm_num⟩⟩

/-- Modelled from the spec: the notebook's
`KLLParameters(spark_session, sketch_size, shrinking_factor, n_buckets)`
constructor (the pydeequ class itself is not in the repository); the Spark
session argument carries no data and is omitted. -/
structure KLLParameters where
  sketchSize : ℚ
  shrinkingFactor : ℚ
  nBuckets : ℚ

/-- Modelled from the spec: the parameters sequence exposed on the
`kllSketchSatisfies` query result (the engine's BucketDistribution.parameters
is not in the repository); the notebook documents `apply(0)` as the shrinking
factor and `apply(1)` as the sketch size, and its output prints
`List(0.64, 2.0)` for sketch size 2 and shrinking factor 0.64. -/
def parametersSeq (p : KLLParameters) : List ℚ :=
  [p.shrinkingFactor, p.sketchSize]

/-- C10: the exposed parameters sequence lists the shrinking factor at index
0 and the sketch size at index 1 — the reverse of the constructor's
(sketch_size, shrinking_factor) argument order — and a sketch built with size
2 and shrinking factor 0.64 exposes the sequence (0.64, 2). -/
theorem c10_parameters_order (p : KLLParameters) :
    (parametersSeq p).get? 0 = some p.shrinkingFactor
    ∧ (parametersSeq p).get? 1 = some p.sketchSize
    ∧ parametersSeq p = [p.sketchSize, p.shrinkingFactor].reverse
    ∧ parametersSeq { sketchSize := 2, shrinkingFactor := 16 / 25, nBuckets := 2 }
        = [16 / 25, 2] :=
  ⟨rfl, rfl, rfl, rfl⟩

end KLL
